import Mathlib

/-!
Verification of the Garage block manager (`src/model/block.rs`).

This file gives a shallow embedding of the block manager's data model and
operations, and proves the properties claimed of it.  Pure computations
(hex encoding, big-endian keys, the refcount update functions, the
directory-walk filter) are translated directly; the effectful parts are
modelled by explicit state passing over a `BMState` record holding the
file system, the refcount tree and the resync queue, with the external
collaborators (clock, hash function, replication oracle, RPC transport)
supplied by an `Env` record.  Machine integers (`u64`) are modelled as
`Nat` with explicit reduction modulo `2 ^ 64` where the source performs
`u64` arithmetic.
-/

namespace BlockSpec

/-- Byte sequences are modelled as lists of naturals, one entry per byte. -/
abbrev Bytes := List Nat

/-- Hashes (256-bit BLAKE2 digests) are modelled as their 32-byte contents. -/
abbrev Hash := Bytes

/-- Node identifiers of the RPC layer. -/
abbrev NodeID := Nat

/-- Lowercase hex digit character for a nibble, as produced by `hex::encode`. -/
def hexDigitChar (n : Nat) : Char :=
  (String.data "0123456789abcdef").getD n 'x'

/-- Hex encoding of one byte (two lowercase hex characters). -/
def hexByte (b : Nat) : String :=
  String.mk [hexDigitChar (b / 16 % 16), hexDigitChar (b % 16)]

/-- Hex encoding of a byte string, as produced by `hex::encode`. -/
def hexEncode (bs : Bytes) : String :=
  String.join (bs.map hexByte)

/-- Value of a single hex character; `hex::decode` accepts both cases. -/
def hexVal (c : Char) : Option Nat :=
  if '0' ≤ c ∧ c ≤ '9' then some (c.toNat - '0'.toNat)
  else if 'a' ≤ c ∧ c ≤ 'f' then some (c.toNat - 'a'.toNat + 10)
  else if 'A' ≤ c ∧ c ≤ 'F' then some (c.toNat - 'A'.toNat + 10)
  else none

/-- Hex decoding of a character list, as `hex::decode`: fails on odd length
or on any non-hex character, and produces one byte per character pair. -/
def hexDecodeChars : List Char → Option Bytes
  | [] => some []
  | [_] => none
  | c1 :: c2 :: rest =>
    match hexVal c1, hexVal c2, hexDecodeChars rest with
    | some hi, some lo, some bs => some ((16 * hi + lo) :: bs)
    | _, _, _ => none

/-- Hex decoding of a string, as `hex::decode`. -/
def hexDecodeStr (s : String) : Option Bytes :=
  hexDecodeChars s.data

/-- Big-endian byte encoding of `n` on `l` bytes (`u64::to_be_bytes` is the
case `l = 8` for `n < 2 ^ 64`). -/
def beBytes : Nat → Nat → Bytes
  | 0, _ => []
  | l + 1, n => (n / 256 ^ l) % 256 :: beBytes l (n % 256 ^ l)

/-- Big-endian encoding of a `u64`, as `u64::to_be_bytes`. -/
def u64_to_be_bytes (n : Nat) : Bytes :=
  beBytes 8 n

/-- Strict lexicographic order on byte strings, the key order of the
embedded ordered key-value store (sled). -/
def bytesLt : Bytes → Bytes → Bool
  | _, [] => false
  | [], _ :: _ => true
  | a :: as, b :: bs =>
    if a < b then true
    else if b < a then false
    else bytesLt as bs

/-- Lookup in an association list representing a finite map. -/
def alLookup [DecidableEq α] : List (α × β) → α → Option β
  | [], _ => none
  | e :: rest, k => if e.1 = k then some e.2 else alLookup rest k

/-- Removal of a key from an association list. -/
def alErase [DecidableEq α] (l : List (α × β)) (k : α) : List (α × β) :=
  l.filter (fun e => e.1 != k)

/-- Insertion into an association list, overwriting the key. -/
def alInsert [DecidableEq α] (l : List (α × β)) (k : α) (v : β) : List (α × β) :=
  (k, v) :: alErase l k

/-- The local file system: a finite map from full path strings to file
contents, modelled as an association list. -/
abbrev FS := List (String × Bytes)

/-- Look a path up in the file system (`File::open` / `fs::metadata`). -/
def fsLookup (fs : FS) (p : String) : Option Bytes :=
  alLookup fs p

/-- Remove a path from the file system (`fs::remove_file`). -/
def fsErase (fs : FS) (p : String) : FS :=
  alErase fs p

/-- Create or overwrite a file (`File::create` followed by `write_all`). -/
def fsInsert (fs : FS) (p : String) (v : Bytes) : FS :=
  alInsert fs p v

/-- Rename a file (`fs::rename`); a no-op when the source is absent (all
call sites in the source rename a path they just created or read). -/
def fsRename (fs : FS) (src dst : String) : FS :=
  match fsLookup fs src with
  | none => fs
  | some v => fsInsert (fsErase fs src) dst v

/-- The resync queue: the `block_local_resync_queue` sled tree, an ordered
map from byte-string keys to values, kept sorted by `bytesLt` with
distinct keys (sled `insert` overwrites an equal key). -/
abbrev Queue := List (Bytes × Bytes)

/-- Ordered insert into the queue, overwriting an equal key. -/
def qInsert : Queue → Bytes → Bytes → Queue
  | [], k, v => [(k, v)]
  | e :: rest, k, v =>
    if bytesLt k e.1 then (k, v) :: e :: rest
    else if k = e.1 then (k, v) :: rest
    else e :: qInsert rest k v

/-- Look a key up in the queue. -/
def qLookup (q : Queue) (k : Bytes) : Option Bytes :=
  alLookup q k

/-- Remove and return the minimum entry (sled `pop_min`); on the sorted
representation this is the head. -/
def pop_min : Queue → Option ((Bytes × Bytes) × Queue)
  | [] => none
  | e :: rest => some (e, rest)

/-- Sortedness invariant of the queue representation: keys are strictly
increasing in the lexicographic order (the `<` of `List Nat` is exactly the
sled byte-string order: a strict prefix is smaller, otherwise the first
differing byte decides). -/
def QSorted (q : Queue) : Prop :=
  List.Pairwise (fun a b => a.1 < b.1) q

/-- Index at which a key sits in the queue, i.e. how many pops must happen
before `pop_min` returns it. -/
def keyIdx (q : Queue) (k : Bytes) : Nat :=
  List.findIdx (fun e => e.1 == k) q

/-- The refcount tree `block_local_rc`: a finite map from hashes to `u64`
counters, modelled as an association list with `Nat` values (values
written by the code are always below `2 ^ 64`). -/
abbrev RcMap := List (Hash × Nat)

/-- Look a hash up in the refcount tree. -/
def rcGet (rc : RcMap) (h : Hash) : Option Nat :=
  alLookup rc h

/-- Remove a hash from the refcount tree. -/
def rcRemove (rc : RcMap) (h : Hash) : RcMap :=
  alErase rc h

/-- Set the counter of a hash in the refcount tree. -/
def rcSet (rc : RcMap) (h : Hash) (v : Nat) : RcMap :=
  alInsert rc h v

/-- State owned by one `BlockManager`: the data directory contents, the
refcount tree and the resync queue. -/
structure BMState where
  fs : FS
  rc : RcMap
  queue : Queue
deriving DecidableEq

/-- Errors visible at the block manager boundary.  `NotFound` stands for
the io error surfaced when `File::open` fails on an absent path. -/
inductive Error where
  | NotFound : Error
  | CorruptData : Hash → Error
  | Message : String → Error
  | BadRpc : String → Error
deriving DecidableEq

/-- RPC messages used to share blocks of data between nodes.  The
`PutBlockMessage` payload is inlined into the `PutBlock` variant. -/
inductive BlockRpc where
  | Ok : BlockRpc
  | GetBlock : Hash → BlockRpc
  | PutBlock : Hash → Bytes → BlockRpc
  | NeedBlockQuery : Hash → BlockRpc
  | NeedBlockReply : Bool → BlockRpc
deriving DecidableEq

deriving instance DecidableEq for Except

/-- External collaborators of the block manager: the clock (`now_msec`),
the BLAKE2 digest function (`blake2sum`), the data directory, the
replication oracle (`write_nodes`, `write_quorum`), the node identity,
and the RPC transport.  `need_block_rpc node h` is the outcome of the
`NeedBlockQuery` call to one peer (an error models a timeout),
`put_block_rpc` the outcome of the `try_call_many` broadcast of a
`PutBlock`, and `rpc_get_block` the outcome of fetching a block from the
read set. -/
structure Env where
  blake2sum : Bytes → Hash
  now_msec : Nat
  data_dir : String
  write_nodes : Hash → List NodeID
  write_quorum : Nat
  self_id : NodeID
  need_block_rpc : NodeID → Hash → Except Error BlockRpc
  put_block_rpc : List NodeID → BlockRpc → Except Error Unit
  rpc_get_block : Hash → Except Error Bytes

/-- Modelled from the spec: the error-context decorator from the utility
crate (not under `src/`); the spec does not describe it, and it only
decorates the error's message text, so it is modelled as the identity on
the error value. -/
def err_context (_ctx : String) (r : Except Error α) : Except Error α :=
  r

/-- BLOCK_RW_TIMEOUT, in milliseconds (42 seconds). -/
def BLOCK_RW_TIMEOUT : Nat := 42000

/-- BLOCK_GC_TIMEOUT, in milliseconds (60 seconds). -/
def BLOCK_GC_TIMEOUT : Nat := 60000

/-- NEED_BLOCK_QUERY_TIMEOUT, in milliseconds (5 seconds). -/
def NEED_BLOCK_QUERY_TIMEOUT : Nat := 5000

/-- RESYNC_RETRY_TIMEOUT, in milliseconds (10 seconds). -/
def RESYNC_RETRY_TIMEOUT : Nat := 10000

/-- Path of the directory in which a block should be found:
`data_dir / hex(hash[0]) / hex(hash[1])`. -/
def block_dir (env : Env) (hash : Hash) : String :=
  env.data_dir ++ "/" ++ hexByte (hash.getD 0 0) ++ "/" ++ hexByte (hash.getD 1 0)

/-- Full path where a block should be found. -/
def block_path (env : Env) (hash : Hash) : String :=
  block_dir env hash ++ "/" ++ hexEncode hash

/-- Sibling path used for in-progress writes (`set_extension("tmp")` on a
dot-free file name appends the extension). -/
def tmp_path (env : Env) (hash : Hash) : String :=
  block_path env hash ++ ".tmp"

/-- Sibling path used for quarantined blocks. -/
def corrupted_path (env : Env) (hash : Hash) : String :=
  block_path env hash ++ ".corrupted"

/-- Queue key written by `put_to_resync`: the big-endian 8-byte due time
(`now_msec() + delay`, computed in `u64`) followed by the hash. -/
def resync_key (now delay : Nat) (hash : Hash) : Bytes :=
  u64_to_be_bytes ((now + delay) % 2 ^ 64) ++ hash

/-- Push one resync task onto the queue tree: insert under the composite
key with the hash as value. -/
def queue_put (now : Nat) (q : Queue) (hash : Hash) (delay : Nat) : Queue :=
  qInsert q (resync_key now delay hash) hash

/-- Enqueue a resync task for `hash` due `delay` milliseconds from `now`. -/
def put_to_resync (now : Nat) (s : BMState) (hash : Hash) (delay : Nat) : BMState :=
  { s with queue := queue_put now s.queue hash delay }

/-- Increment the number of times a block is used (`block_incref`):
fetch-and-update storing `old + 1` (in `u64`), then enqueue a resync with
delay BLOCK_RW_TIMEOUT when the prior value was zero or absent. -/
def block_incref (now : Nat) (s : BMState) (hash : Hash) : BMState :=
  let old := rcGet s.rc hash
  let old_v := old.getD 0
  let s1 : BMState := { s with rc := rcSet s.rc hash ((old_v + 1) % 2 ^ 64) }
  let old_rc := old.getD 0
  if old_rc = 0 then put_to_resync now s1 hash BLOCK_RW_TIMEOUT else s1

/-- Decrement the number of times a block is used (`block_decref`):
update-and-fetch storing `old - 1` when `old > 1` and removing the entry
otherwise, then enqueue a resync with delay BLOCK_GC_TIMEOUT when the
update left no entry. -/
def block_decref (now : Nat) (s : BMState) (hash : Hash) : BMState :=
  let old_v := (rcGet s.rc hash).getD 0
  let new_rc : Option Nat := if old_v > 1 then some (old_v - 1) else none
  let s1 : BMState :=
    match new_rc with
    | some v => { s with rc := rcSet s.rc hash v }
    | none => { s with rc := rcRemove s.rc hash }
  if new_rc = none then put_to_resync now s1 hash BLOCK_GC_TIMEOUT else s1

/-- Read a block's reference count (`get_block_rc`): 0 when absent. -/
def get_block_rc (s : BMState) (hash : Hash) : Nat :=
  (rcGet s.rc hash).getD 0

/-- Status of a block on the local node. -/
structure BlockStatus where
  exists' : Bool
  needed : Bool

/-- Compute a block's status under the mutation lock
(`check_block_status`): the file exists, and the refcount is positive. -/
def check_block_status (env : Env) (s : BMState) (hash : Hash) : BlockStatus :=
  { exists' := (fsLookup s.fs (block_path env hash)).isSome
    needed := 0 < get_block_rc s hash }

/-- Write a block to disk (`BlockManagerLocked::write_block`): return
success with no work when the final path exists, otherwise write to the
sibling `.tmp` file and rename it onto the final path. -/
def write_block (env : Env) (s : BMState) (hash : Hash) (data : Bytes) :
    Except Error BlockRpc × BMState :=
  let path := block_path env hash
  match fsLookup s.fs path with
  | some _ => (.ok .Ok, s)
  | none =>
    let path2 := tmp_path env hash
    let fs1 := fsInsert s.fs path2 data
    let fs2 := fsRename fs1 path2 path
    (.ok .Ok, { s with fs := fs2 })

/-- Quarantine a corrupted block (`move_block_to_corrupted`): rename the
file to its `.corrupted` sibling and enqueue a zero-delay resync. -/
def move_block_to_corrupted (env : Env) (s : BMState) (hash : Hash) : BMState :=
  let path := block_path env hash
  let path2 := corrupted_path env hash
  let s1 : BMState := { s with fs := fsRename s.fs path path2 }
  put_to_resync env.now_msec s1 hash 0

/-- Read a block from disk, verifying its integrity (`read_block`): on an
absent file, enqueue a zero-delay resync and fail with NotFound; on a
digest mismatch, quarantine and fail with CorruptData; otherwise return
the data as a `PutBlock` message. -/
def read_block (env : Env) (s : BMState) (hash : Hash) :
    Except Error BlockRpc × BMState :=
  match fsLookup s.fs (block_path env hash) with
  | none => (.error .NotFound, put_to_resync env.now_msec s hash 0)
  | some data =>
    if env.blake2sum data ≠ hash then
      (.error (.CorruptData hash), move_block_to_corrupted env s hash)
    else
      (.ok (.PutBlock hash data), s)

/-- Delete a block file if it is present and unneeded, re-checking the
status under the mutation lock (`delete_if_unneeded`). -/
def delete_if_unneeded (env : Env) (s : BMState) (hash : Hash) : BMState :=
  let st := check_block_status env s hash
  if st.exists' && !st.needed then
    { s with fs := fsErase s.fs (block_path env hash) }
  else s

/-- Collect the peers that replied `NeedBlockReply(true)`, in order
(the loop over `who.iter().zip(who_needs_resps)` in `resync_block`): an
RPC failure (such as a timeout) propagates out as an error, and a reply
of an unexpected variant is a `Message` error. -/
def collect_need_nodes (env : Env) (hash : Hash) : List NodeID → Except Error (List NodeID)
  | [] => .ok []
  | node :: rest =>
    match err_context "NeedBlockQuery RPC" (env.need_block_rpc node hash) with
    | .error e => .error e
    | .ok (.NeedBlockReply b) =>
      match collect_need_nodes env hash rest with
      | .error e => .error e
      | .ok need_nodes => .ok (if b then node :: need_nodes else need_nodes)
    | .ok _ => .error (.Message "Unexpected response to NeedBlockQuery RPC")

/-- Offload branch of `resync_block` (the body of `if exists && !needed`):
abort when the write set is below the write quorum; query the write set
minus this node; when some peer needs the block, read it locally and send
it to all of them; finally delete the local copy if still unneeded. -/
def offload_block (env : Env) (s : BMState) (hash : Hash) :
    Except Error Unit × BMState :=
  let who := env.write_nodes hash
  if who.length < env.write_quorum then
    (.error (.Message "Not trying to offload block because we don't have a quorum of nodes to write to"), s)
  else
    let who2 := who.filter (fun id => id != env.self_id)
    match collect_need_nodes env hash who2 with
    | .error e => (.error e, s)
    | .ok need_nodes =>
      if !need_nodes.isEmpty then
        let r := read_block env s hash
        match err_context "PutBlock RPC" r.1 with
        | .error e => (.error e, r.2)
        | .ok put_block_message =>
          match env.put_block_rpc need_nodes put_block_message with
          | .error e => (.error e, r.2)
          | .ok _ => (.ok (), delete_if_unneeded env r.2 hash)
      else
        (.ok (), delete_if_unneeded env s hash)

/-- Fetch branch of `resync_block` (the body of `if needed && !exists`):
fetch the block from the read set and write it locally. -/
def fetch_block (env : Env) (s : BMState) (hash : Hash) :
    Except Error Unit × BMState :=
  match env.rpc_get_block hash with
  | .error e => (.error e, s)
  | .ok block_data =>
    let w := write_block env s hash block_data
    match w.1 with
    | .error e => (.error e, w.2)
    | .ok _ => (.ok (), w.2)

/-- Reconcile the local state of one hash (`resync_block`): compute the
block status under the mutation lock, then offload-and-delete a present
unneeded block, or fetch an absent needed one. -/
def resync_block (env : Env) (s : BMState) (hash : Hash) :
    Except Error Unit × BMState :=
  let st := check_block_status env s hash
  let step1 :=
    if st.exists' && !st.needed then offload_block env s hash
    else (.ok (), s)
  match step1 with
  | (.error e, s1) => (.error e, s1)
  | (.ok _, s1) =>
    if st.needed && !st.exists' then fetch_block env s1 hash
    else (.ok (), s1)

/-  Directory tree visited by `for_each_file_rec`.  An entry carries its
name (`none` models a name that is not valid UTF-8, on which
`OsString::into_string` fails) and is either a directory with children or
a regular file with contents. -/
mutual

inductive DirEnt where
  | dir : Option String → EntList → DirEnt
  | file : Option String → Bytes → DirEnt

inductive EntList where
  | nil : EntList
  | cons : DirEnt → EntList → EntList

end

/-  List of hashes yielded, in order, by `for_each_file_rec` on one entry
(respectively on a directory's entry list).  `none` models the panic of
`copy_from_slice` when the decoded name does not have 32 bytes; every
other non-matching entry is skipped with `continue`. -/
mutual

def walkEnt : DirEnt → Option (List Hash)
  | .dir none _ => some []
  | .file none _ => some []
  | .dir (some name) entries =>
    if name.length = 2 ∧ (hexDecodeStr name).isSome then walkList entries
    else if name.length = 64 then
      match hexDecodeStr name with
      | none => some []
      | some hash_bytes => if hash_bytes.length = 32 then some [hash_bytes] else none
    else some []
  | .file (some name) _ =>
    if name.length = 64 then
      match hexDecodeStr name with
      | none => some []
      | some hash_bytes => if hash_bytes.length = 32 then some [hash_bytes] else none
    else some []

def walkList : EntList → Option (List Hash)
  | .nil => some []
  | .cons e rest =>
    match walkEnt e, walkList rest with
    | some a, some b => some (a ++ b)
    | _, _ => none

end

/-- Whether a character is a hex digit of either case. -/
def isHexChar (c : Char) : Bool :=
  ('0' ≤ c && c ≤ '9') || ('a' ≤ c && c ≤ 'f') || ('A' ≤ c && c ≤ 'F')

/-- Whether a character is a lowercase hex digit. -/
def isLowerHexChar (c : Char) : Bool :=
  ('0' ≤ c && c ≤ '9') || ('a' ≤ c && c ≤ 'f')

/-  Modelled from the spec: the directory walk rule as the claim states
it, with `depth` the depth of the entries being examined (1 for the
immediate children of `data_dir`): at depth 1 and 2 only, descend into
directory entries named by exactly two lowercase hex characters; at
depth 3 only, yield regular files named by exactly 64 hex characters;
skip everything else. -/
mutual

def specWalkEnt (depth : Nat) : DirEnt → List Hash
  | .dir (some name) entries =>
    if (depth = 1 ∨ depth = 2) ∧ name.length = 2 ∧ name.data.all isLowerHexChar = true then
      specWalkList (depth + 1) entries
    else []
  | .file (some name) _ =>
    if depth = 3 ∧ name.length = 64 ∧ name.data.all isHexChar = true then
      [(hexDecodeStr name).getD []]
    else []
  | _ => []

def specWalkList (depth : Nat) : EntList → List Hash
  | .nil => []
  | .cons e rest => specWalkEnt depth e ++ specWalkList depth rest

end

/-  Amended directory walk rule, as the code implements it: at every
depth, descend into directory entries named by exactly two hex characters
of either case, and yield every entry (directory or regular file, at any
depth) named by exactly 64 hex characters of either case; skip everything
else, including names that are not valid UTF-8. -/
mutual

def amendedWalkEnt : DirEnt → List Hash
  | .dir (some name) entries =>
    if name.length = 2 ∧ name.data.all isHexChar = true then amendedWalkList entries
    else if name.length = 64 ∧ name.data.all isHexChar = true then
      [(hexDecodeStr name).getD []]
    else []
  | .file (some name) _ =>
    if name.length = 64 ∧ name.data.all isHexChar = true then
      [(hexDecodeStr name).getD []]
    else []
  | _ => []

def amendedWalkList : EntList → List Hash
  | .nil => []
  | .cons e rest => amendedWalkEnt e ++ amendedWalkList rest

end

/-! ## Fixtures used by the witnesses and counterexamples -/

/-- Fixture: the all-zero 32-byte hash. -/
def h0 : Hash := List.replicate 32 0

/-- Fixture: an empty block manager state. -/
def sNull : BMState := ⟨[], [], []⟩

/-- Fixture: an environment with no peers and inert RPC transport. -/
def envNull : Env :=
  { blake2sum := fun _ => h0
    now_msec := 0
    data_dir := "d"
    write_nodes := fun _ => []
    write_quorum := 1
    self_id := 0
    need_block_rpc := fun _ _ => .error (.Message "t")
    put_block_rpc := fun _ _ => .ok ()
    rpc_get_block := fun _ => .error (.Message "g") }

/-- Fixture: an environment whose digest function never returns `h0`. -/
def envBad : Env := { envNull with blake2sum := fun _ => [9] }

/-- Fixture: a state holding a single refcount entry of value 5 for `h0`. -/
def sRc5 : BMState := ⟨[], [(h0, 5)], []⟩

/-- Fixture: a state holding one block file for `h0` and nothing else. -/
def sFile : BMState := ⟨[(block_path envNull h0, [1, 2])], [], []⟩

/-- Fixture: an environment whose write set is this node alone, with
quorum 1, so the offload of an unneeded block proceeds with no peers and
deletes the local file. -/
def envDel : Env :=
  { envNull with write_nodes := fun _ => [0], write_quorum := 1, self_id := 0 }

/-- Modelled from the spec: the claim's reading of the need-nodes
collection, in which peers that fail to respond within the timeout are
simply omitted and only the respondents that replied `true` are kept. -/
def collect_need_nodes_spec (env : Env) (hash : Hash) (who : List NodeID) : List NodeID :=
  who.filter (fun node => decide (env.need_block_rpc node hash = .ok (.NeedBlockReply true)))

/-- Fixture: an environment with three write nodes where peer 1 times out
on `NeedBlockQuery` and peer 2 replies `true`. -/
def envC4 : Env :=
  { envNull with
    write_nodes := fun _ => [0, 1, 2]
    write_quorum := 3
    self_id := 0
    need_block_rpc := fun node _ =>
      if node = 1 then .error (.Message "timeout") else .ok (.NeedBlockReply true) }

/-- Fixture: the all-one 32-byte hash. -/
def hOne : Hash := List.replicate 32 1

/-- Fixture: a 64-character lowercase hex name (all zeroes). -/
def name64 : String :=
  "0000000000000000000000000000000000000000000000000000000000000000"

/-- Fixture: a data directory containing, at depth 1, a single regular file
whose name is 64 hex characters. -/
def exTree : EntList := .cons (.file (some name64) [7]) .nil

/-! ## Association list lemmas -/

theorem alLookup_erase [DecidableEq α] (l : List (α × β)) (k q : α) :
    alLookup (alErase l k) q = if q = k then none else alLookup l q := by
  induction l with
  | nil => simp [alErase, alLookup]
  | cons e rest ih =>
    by_cases hek : e.1 = k
    · have h1 : alErase (e :: rest) k = alErase rest k := by
        simp [alErase, List.filter_cons, hek]
      rw [h1, ih]
      by_cases hqk : q = k
      · simp [hqk]
      · have hne : e.1 ≠ q := by rw [hek]; exact fun h => hqk h.symm
        simp [hqk, alLookup, hne]
    · have h1 : alErase (e :: rest) k = e :: alErase rest k := by
        simp [alErase, List.filter_cons, hek]
      rw [h1]
      by_cases heq : e.1 = q
      · have hqk : q ≠ k := fun h => hek (heq.symm ▸ h ▸ rfl)
        simp [alLookup, heq, hqk]
      · simp [alLookup, heq, ih]

theorem alLookup_insert_self [DecidableEq α] (l : List (α × β)) (k : α) (v : β) :
    alLookup (alInsert l k v) k = some v := by
  simp [alInsert, alLookup]

theorem alLookup_insert_ne [DecidableEq α] (l : List (α × β)) (k q : α) (v : β)
    (h : q ≠ k) : alLookup (alInsert l k v) q = alLookup l q := by
  have hk : k ≠ q := fun hh => h hh.symm
  simp [alInsert, alLookup, hk, alLookup_erase, h]

theorem countP_erase_key [DecidableEq α] (l : List (α × β)) (k : α) :
    List.countP (fun e => e.1 == k) (alErase l k) = 0 := by
  rw [List.countP_eq_zero]
  intro a ha
  rw [alErase, List.mem_filter] at ha
  simpa using ha.2

theorem countP_insert_self [DecidableEq α] (l : List (α × β)) (k : α) (v : β) :
    List.countP (fun e => e.1 == k) (alInsert l k v) = 1 := by
  simp [alInsert, List.countP_cons, countP_erase_key]

theorem countP_lookup_nodup [DecidableEq α] (l : List (α × β)) (k : α) (v : β)
    (hnd : (l.map Prod.fst).Nodup) (hl : alLookup l k = some v) :
    List.countP (fun e => e.1 == k) l = 1 := by
  induction l with
  | nil => simp [alLookup] at hl
  | cons e rest ih =>
    rw [List.map_cons, List.nodup_cons] at hnd
    by_cases hek : e.1 = k
    · have hz : List.countP (fun e => e.1 == k) rest = 0 := by
        rw [List.countP_eq_zero]
        intro a ha hak
        apply hnd.1
        rw [beq_iff_eq] at hak
        exact hek ▸ hak ▸ List.mem_map_of_mem Prod.fst ha
      simp [List.countP_cons, hek, hz]
    · rw [alLookup] at hl
      simp only [hek, if_false] at hl
      simp [List.countP_cons, hek, ih hnd.2 hl]

/-! ## Path lemmas -/

theorem append_ne_self (s t : String) (h : t.length ≠ 0) : s ++ t ≠ s := by
  intro he
  have hlen := congrArg String.length he
  rw [String.length_append] at hlen
  omega

theorem tmp_path_ne_block_path (env : Env) (hash : Hash) :
    tmp_path env hash ≠ block_path env hash :=
  append_ne_self _ ".tmp" (by decide)

theorem corrupted_path_ne_block_path (env : Env) (hash : Hash) :
    corrupted_path env hash ≠ block_path env hash :=
  append_ne_self _ ".corrupted" (by decide)

/-! ## Queue lemmas -/

theorem qLookup_qInsert_self (q : Queue) (k v : Bytes) :
    qLookup (qInsert q k v) k = some v := by
  induction q with
  | nil => simp [qInsert, qLookup, alLookup]
  | cons e rest ih =>
    rw [qInsert]
    by_cases h1 : bytesLt k e.1
    · simp [h1, qLookup, alLookup]
    · by_cases h2 : k = e.1
      · subst h2
        simp [h1, qLookup, alLookup]
      · have hek : e.1 ≠ k := fun hh => h2 hh.symm
        simpa [h1, h2, qLookup, alLookup, hek] using ih

/-! ## Write path lemmas -/

theorem alErase_alInsert_self [DecidableEq α] (l : List (α × β)) (k : α) (v : β) :
    alErase (alInsert l k v) k = alErase l k := by
  simp [alInsert, alErase, List.filter_cons, List.filter_filter]

theorem write_block_noop (env : Env) (s : BMState) (hash : Hash) (b v : Bytes)
    (hfs : fsLookup s.fs (block_path env hash) = some v) :
    write_block env s hash b = (.ok .Ok, s) := by
  simp [write_block, hfs]

theorem write_block_fresh (env : Env) (s : BMState) (hash : Hash) (b : Bytes)
    (hfs : fsLookup s.fs (block_path env hash) = none) :
    write_block env s hash b =
      (.ok .Ok,
        { s with fs := alInsert (alErase s.fs (tmp_path env hash)) (block_path env hash) b }) := by
  have hfs' : alLookup s.fs (block_path env hash) = none := hfs
  simp [write_block, fsLookup, fsRename, fsInsert, fsErase, hfs',
    alLookup_insert_self, alErase_alInsert_self]

theorem write_block_fs_lookup (env : Env) (s : BMState) (hash : Hash) (b : Bytes)
    (h : fsLookup s.fs (block_path env hash) = none ∨
         fsLookup s.fs (block_path env hash) = some b) :
    fsLookup (write_block env s hash b).2.fs (block_path env hash) = some b := by
  cases h with
  | inl h1 =>
    rw [write_block_fresh env s hash b h1]
    exact alLookup_insert_self _ _ _
  | inr h1 =>
    rw [write_block_noop env s hash b b h1]
    exact h1

theorem write_block_lookup_isSome (env : Env) (s : BMState) (hash : Hash) (b : Bytes) :
    (fsLookup (write_block env s hash b).2.fs (block_path env hash)).isSome = true := by
  cases hfs : fsLookup s.fs (block_path env hash) with
  | some v => rw [write_block_noop env s hash b v hfs, hfs]; rfl
  | none =>
    rw [write_block_fs_lookup env s hash b (Or.inl hfs)]
    rfl

/-! ## C6: read of an absent block -/

/-- C6: for every hash whose canonical block file does not exist, `read_block`
fails with NotFound and, as a side effect, enqueues a resync task for the hash
with zero delay (the disk and refcount state are untouched); the caller still
sees the error. -/
theorem read_block_absent_not_found (env : Env) (s : BMState) (hash : Hash)
    (habs : fsLookup s.fs (block_path env hash) = none) :
    (read_block env s hash).1 = .error .NotFound ∧
    (read_block env s hash).2.fs = s.fs ∧
    (read_block env s hash).2.rc = s.rc ∧
    qLookup (read_block env s hash).2.queue (resync_key env.now_msec 0 hash) = some hash := by
  rw [read_block, habs]
  exact ⟨rfl, rfl, rfl, qLookup_qInsert_self _ _ _⟩

theorem read_block_absent_not_found_witness :
    fsLookup sNull.fs (block_path envNull h0) = none ∧
    ((read_block envNull sNull h0).1 = .error .NotFound ∧
     (read_block envNull sNull h0).2.fs = sNull.fs ∧
     (read_block envNull sNull h0).2.rc = sNull.rc ∧
     qLookup (read_block envNull sNull h0).2.queue
       (resync_key envNull.now_msec 0 h0) = some h0) :=
  ⟨rfl, read_block_absent_not_found envNull sNull h0 rfl⟩

/-! ## C8: write idempotence -/

/-- C8: `write_block` is idempotent: when the canonical path already exists the
call succeeds without changing anything, otherwise the bytes reach the
canonical path through the `.tmp` sibling; applying it twice returns success
and leaves the state of the first application unchanged, with exactly one
file at the canonical path. -/
theorem write_block_idempotent (env : Env) (s : BMState) (hash : Hash) (b : Bytes)
    (hnd : (s.fs.map Prod.fst).Nodup) :
    write_block env (write_block env s hash b).2 hash b = (.ok .Ok, (write_block env s hash b).2) ∧
    List.countP (fun e => e.1 == block_path env hash) (write_block env s hash b).2.fs = 1 := by
  cases hfs : fsLookup s.fs (block_path env hash) with
  | some v =>
    rw [write_block_noop env s hash b v hfs]
    exact ⟨write_block_noop env s hash b v hfs,
      countP_lookup_nodup s.fs _ v hnd hfs⟩
  | none =>
    have hlk : fsLookup (write_block env s hash b).2.fs (block_path env hash) = some b :=
      write_block_fs_lookup env s hash b (Or.inl hfs)
    constructor
    · exact write_block_noop env _ hash b b hlk
    · rw [write_block_fresh env s hash b hfs]
      exact countP_insert_self _ _ _

theorem write_block_idempotent_witness :
    ((sNull.fs.map Prod.fst).Nodup) ∧
    (write_block envNull (write_block envNull sNull h0 [1, 2]).2 h0 [1, 2] =
        (.ok .Ok, (write_block envNull sNull h0 [1, 2]).2) ∧
     List.countP (fun e => e.1 == block_path envNull h0)
        (write_block envNull sNull h0 [1, 2]).2.fs = 1) :=
  ⟨List.nodup_nil, write_block_idempotent envNull sNull h0 [1, 2] List.nodup_nil⟩

/-! ## C1: content-addressed integrity -/

theorem fsRename_eq (fs : FS) (src dst : String) (v : Bytes)
    (h : fsLookup fs src = some v) :
    fsRename fs src dst = fsInsert (fsErase fs src) dst v := by
  simp [fsRename, h]

/-- C1: after a write of bytes `b` under hash `hash` onto a state where the
canonical path holds nothing else, a read returns `b` exactly when the BLAKE2
digest of `b` is `hash`; and whenever the canonical file holds bytes whose
digest differs from `hash`, the read fails with `CorruptData hash`, the block
file is renamed to its `.corrupted` sibling, and a zero-delay resync task for
`hash` is enqueued. -/
theorem read_after_write_integrity (env : Env) (s : BMState) (hash : Hash) (b : Bytes)
    (hpre : fsLookup s.fs (block_path env hash) = none ∨
            fsLookup s.fs (block_path env hash) = some b) :
    (((read_block env (write_block env s hash b).2 hash).1 = .ok (.PutBlock hash b)) ↔
      env.blake2sum b = hash) ∧
    (∀ (s' : BMState) (d : Bytes),
      fsLookup s'.fs (block_path env hash) = some d →
      env.blake2sum d ≠ hash →
      (read_block env s' hash).1 = .error (.CorruptData hash) ∧
      fsLookup (read_block env s' hash).2.fs (block_path env hash) = none ∧
      fsLookup (read_block env s' hash).2.fs (corrupted_path env hash) = some d ∧
      qLookup (read_block env s' hash).2.queue (resync_key env.now_msec 0 hash) = some hash) := by
  constructor
  · have hlk : fsLookup (write_block env s hash b).2.fs (block_path env hash) = some b :=
      write_block_fs_lookup env s hash b hpre
    by_cases hbl : env.blake2sum b = hash
    · simp [read_block, hlk, hbl]
    · simp [read_block, hlk, hbl]
  · intro s' d hd hne
    have hread : read_block env s' hash =
        (.error (.CorruptData hash), move_block_to_corrupted env s' hash) := by
      simp [read_block, hd, hne]
    rw [hread]
    refine ⟨rfl, ?_, ?_, ?_⟩
    · show fsLookup (move_block_to_corrupted env s' hash).fs (block_path env hash) = none
      simp only [move_block_to_corrupted, put_to_resync, queue_put]
      rw [fsRename_eq s'.fs _ _ d hd]
      show alLookup (alInsert (alErase s'.fs (block_path env hash))
        (corrupted_path env hash) d) (block_path env hash) = none
      rw [alLookup_insert_ne _ _ _ _
        (fun he => corrupted_path_ne_block_path env hash he.symm)]
      rw [alLookup_erase]
      simp
    · show fsLookup (move_block_to_corrupted env s' hash).fs (corrupted_path env hash) = some d
      simp only [move_block_to_corrupted, put_to_resync, queue_put]
      rw [fsRename_eq s'.fs _ _ d hd]
      exact alLookup_insert_self _ _ _
    · show qLookup (move_block_to_corrupted env s' hash).queue
        (resync_key env.now_msec 0 hash) = some hash
      simp only [move_block_to_corrupted, put_to_resync, queue_put]
      exact qLookup_qInsert_self _ _ _

theorem read_after_write_integrity_witness :
    (((read_block envBad (write_block envBad sNull h0 [1, 2]).2 h0).1 =
        .ok (.PutBlock h0 [1, 2])) ↔ envBad.blake2sum [1, 2] = h0) ∧
    ((read_block envBad (write_block envBad sNull h0 [1, 2]).2 h0).1 =
        .error (.CorruptData h0) ∧
     fsLookup (read_block envBad (write_block envBad sNull h0 [1, 2]).2 h0).2.fs
        (block_path envBad h0) = none ∧
     fsLookup (read_block envBad (write_block envBad sNull h0 [1, 2]).2 h0).2.fs
        (corrupted_path envBad h0) = some [1, 2] ∧
     qLookup (read_block envBad (write_block envBad sNull h0 [1, 2]).2 h0).2.queue
        (resync_key envBad.now_msec 0 h0) = some h0) :=
  ⟨(read_after_write_integrity envBad sNull h0 [1, 2] (Or.inl rfl)).1,
   (read_after_write_integrity envBad sNull h0 [1, 2] (Or.inl rfl)).2
     (write_block envBad sNull h0 [1, 2]).2 [1, 2]
     (write_block_fs_lookup envBad sNull h0 [1, 2] (Or.inl rfl))
     (by decide)⟩

/-! ## C5: incref behaviour -/

theorem rcGet_rcSet_self (rc : RcMap) (h : Hash) (v : Nat) :
    rcGet (rcSet rc h v) h = some v :=
  alLookup_insert_self rc h v

theorem rcGet_rcRemove_self (rc : RcMap) (h : Hash) :
    rcGet (rcRemove rc h) h = none := by
  rw [rcGet, rcRemove, alLookup_erase]
  simp

/-- C5: `block_incref` sets the stored counter to 1 when the entry is absent
or zero and increments it otherwise (within the `u64` range), and it enqueues
a resync task with delay BLOCK_RW_TIMEOUT exactly when the prior value was
zero; the disk state is untouched. -/
theorem block_incref_behavior (now : Nat) (s : BMState) (hash : Hash) :
    ((rcGet s.rc hash).getD 0 = 0 →
      rcGet (block_incref now s hash).rc hash = some 1 ∧
      (block_incref now s hash).queue =
        qInsert s.queue (resync_key now BLOCK_RW_TIMEOUT hash) hash ∧
      qLookup (block_incref now s hash).queue
        (resync_key now BLOCK_RW_TIMEOUT hash) = some hash) ∧
    (0 < (rcGet s.rc hash).getD 0 → (rcGet s.rc hash).getD 0 + 1 < 2 ^ 64 →
      rcGet (block_incref now s hash).rc hash = some ((rcGet s.rc hash).getD 0 + 1) ∧
      (block_incref now s hash).queue = s.queue) ∧
    (block_incref now s hash).fs = s.fs := by
  have hone : (1 : Nat) % 2 ^ 64 = 1 := Nat.mod_eq_of_lt (by norm_num)
  by_cases hz : (rcGet s.rc hash).getD 0 = 0
  · refine ⟨fun _ => ⟨?_, ?_, ?_⟩, fun hpos _ => absurd hz (by omega), ?_⟩
    · simp [block_incref, hz, hone, put_to_resync, rcGet_rcSet_self]
    · simp [block_incref, hz, put_to_resync, queue_put]
    · simp [block_incref, hz, put_to_resync, queue_put, qLookup_qInsert_self]
    · simp [block_incref, hz, put_to_resync, queue_put]
  · refine ⟨fun h => absurd h hz, fun hpos hlt => ⟨?_, ?_⟩, ?_⟩
    · have hlt' : (rcGet s.rc hash).getD 0 + 1 < 18446744073709551616 := by
        simpa using hlt
      simp [block_incref, hz, Nat.mod_eq_of_lt hlt', rcGet_rcSet_self]
    · simp [block_incref, hz]
    · simp [block_incref, hz]

theorem block_incref_behavior_witness :
    (rcGet (block_incref 0 sNull h0).rc h0 = some 1 ∧
     (block_incref 0 sNull h0).queue =
       qInsert sNull.queue (resync_key 0 BLOCK_RW_TIMEOUT h0) h0 ∧
     qLookup (block_incref 0 sNull h0).queue
       (resync_key 0 BLOCK_RW_TIMEOUT h0) = some h0) ∧
    (rcGet (block_incref 0 sRc5 h0).rc h0 = some ((rcGet sRc5.rc h0).getD 0 + 1) ∧
     (block_incref 0 sRc5 h0).queue = sRc5.queue) :=
  ⟨(block_incref_behavior 0 sNull h0).1 rfl,
   (block_incref_behavior 0 sRc5 h0).2.1 (by decide) (by decide)⟩

/-! ## C3: decref behaviour (corrected) -/

theorem alErase_of_lookup_none [DecidableEq α] (l : List (α × β)) (k : α)
    (h : alLookup l k = none) : alErase l k = l := by
  induction l with
  | nil => rfl
  | cons e rest ih =>
    rw [alLookup] at h
    by_cases hek : e.1 = k
    · rw [if_pos hek] at h
      exact absurd h (by simp)
    · rw [if_neg hek] at h
      simp [alErase, List.filter_cons, hek] at ih ⊢
      exact ih h

/-- C3 counterexample: decrementing a hash with no refcount entry removes
nothing (the refcount tree is unchanged), yet a resync task with delay
BLOCK_GC_TIMEOUT is still enqueued, refuting the claim that a task is
enqueued only if the entry was removed (and that the call is a no-op when
the entry is absent). -/
theorem block_decref_absent_counterexample :
    rcGet sNull.rc h0 = none ∧
    (block_decref 0 sNull h0).rc = sNull.rc ∧
    (block_decref 0 sNull h0).queue ≠ sNull.queue ∧
    qLookup (block_decref 0 sNull h0).queue
      (resync_key 0 BLOCK_GC_TIMEOUT h0) = some h0 := by
  refine ⟨rfl, rfl, ?_, qLookup_qInsert_self _ _ _⟩
  intro h
  exact absurd (congrArg List.length h) (by decide)

/-- C3 amended: `block_decref` decrements the stored counter when it is
greater than 1, removes the entry when it is 1 (or 0), and leaves the
refcount tree unchanged when the entry is absent; a resync task with delay
BLOCK_GC_TIMEOUT is enqueued if and only if the update left no entry — in
particular also when the entry was already absent.  The disk state is
untouched. -/
theorem block_decref_behavior (now : Nat) (s : BMState) (hash : Hash) :
    (∀ v, rcGet s.rc hash = some v → 1 < v →
      rcGet (block_decref now s hash).rc hash = some (v - 1) ∧
      (block_decref now s hash).queue = s.queue) ∧
    (∀ v, rcGet s.rc hash = some v → v ≤ 1 →
      rcGet (block_decref now s hash).rc hash = none ∧
      (block_decref now s hash).queue =
        qInsert s.queue (resync_key now BLOCK_GC_TIMEOUT hash) hash) ∧
    (rcGet s.rc hash = none →
      (block_decref now s hash).rc = s.rc ∧
      (block_decref now s hash).queue =
        qInsert s.queue (resync_key now BLOCK_GC_TIMEOUT hash) hash) ∧
    (block_decref now s hash).fs = s.fs := by
  refine ⟨?_, ?_, ?_, ?_⟩
  · intro v hv hgt
    refine ⟨?_, ?_⟩
    · simp [block_decref, hv, hgt, rcGet_rcSet_self]
    · simp [block_decref, hv, hgt]
  · intro v hv hle
    have hngt : ¬(v > 1) := by omega
    refine ⟨?_, ?_⟩
    · simp [block_decref, hv, hngt, put_to_resync, queue_put, rcGet_rcRemove_self]
    · simp [block_decref, hv, hngt, put_to_resync, queue_put]
  · intro hv
    refine ⟨?_, ?_⟩
    · have her : rcRemove s.rc hash = s.rc := alErase_of_lookup_none s.rc hash hv
      simp [block_decref, hv, put_to_resync, her]
    · simp [block_decref, hv, put_to_resync, queue_put]
  · by_cases hgt : (rcGet s.rc hash).getD 0 > 1
    · simp [block_decref, hgt]
    · simp [block_decref, hgt, put_to_resync, queue_put]

theorem block_decref_behavior_witness :
    (rcGet (block_decref 0 sRc5 h0).rc h0 = some (5 - 1) ∧
     (block_decref 0 sRc5 h0).queue = sRc5.queue) ∧
    ((block_decref 0 sNull h0).rc = sNull.rc ∧
     (block_decref 0 sNull h0).queue =
       qInsert sNull.queue (resync_key 0 BLOCK_GC_TIMEOUT h0) h0) :=
  ⟨(block_decref_behavior 0 sRc5 h0).1 5 (by decide) (by norm_num),
   (block_decref_behavior 0 sNull h0).2.2.1 rfl⟩

/-! ## C2: safe deletion -/

/-- C2: a block file is removed by `resync_block` only when the status
`exists ∧ ¬needed` held at the check performed under the mutation lock (and,
the state being unchanged up to the deletion point, at the re-check inside
`delete_if_unneeded` immediately before the unlink); and when the write set
is smaller than the write quorum, `resync_block` on a present, unneeded
block aborts with an error and leaves the state — in particular the local
file — untouched. -/
theorem resync_block_safe_delete (env : Env) (s : BMState) (hash : Hash) :
    ((fsLookup s.fs (block_path env hash)).isSome = true →
     fsLookup (resync_block env s hash).2.fs (block_path env hash) = none →
     (check_block_status env s hash).exists' = true ∧
     (check_block_status env s hash).needed = false) ∧
    ((check_block_status env s hash).exists' = true →
     (check_block_status env s hash).needed = false →
     (env.write_nodes hash).length < env.write_quorum →
     resync_block env s hash =
       (.error (.Message "Not trying to offload block because we don't have a quorum of nodes to write to"), s)) := by
  constructor
  · intro hpre hpost
    by_cases hex : (check_block_status env s hash).exists' = true
    · by_cases hne : (check_block_status env s hash).needed = true
      · exfalso
        have hres : resync_block env s hash = (.ok (), s) := by
          simp [resync_block, hex, hne]
        rw [hres] at hpost
        rw [hpost] at hpre
        exact absurd hpre (by simp)
      · exact ⟨hex, by simpa using hne⟩
    · exfalso
      have hex' : (fsLookup s.fs (block_path env hash)).isSome = true → False := by
        intro h
        exact hex h
      exact hex' hpre
  · intro hex hne hq
    simp [resync_block, hex, hne, offload_block, hq]

theorem resync_block_safe_delete_witness :
    ((check_block_status envDel sFile h0).exists' = true ∧
     (check_block_status envDel sFile h0).needed = false) ∧
    resync_block envNull sFile h0 =
      (.error (.Message "Not trying to offload block because we don't have a quorum of nodes to write to"), sFile) :=
  ⟨(resync_block_safe_delete envDel sFile h0).1 (by decide) (by decide),
   (resync_block_safe_delete envNull sFile h0).2 (by decide) (by decide) (by decide)⟩

/-! ## C4: peers failing a NeedBlockQuery (corrected) -/

/-- C4 counterexample: with peer 1 failing to respond and peer 2 replying
`true`, the claim predicts `need_nodes = [2]` and an offload that proceeds;
the code instead propagates the failure, `resync_block` aborts with the
peer's error, and the local file is not deleted. -/
theorem needblock_timeout_counterexample :
    collect_need_nodes_spec envC4 h0 [1, 2] = [2] ∧
    resync_block envC4 sFile h0 = (.error (.Message "timeout"), sFile) ∧
    fsLookup (resync_block envC4 sFile h0).2.fs (block_path envC4 h0) = some [1, 2] := by
  refine ⟨by decide, by decide, by decide⟩

/-- C4 amended: when every peer in the target write set returns a
`NeedBlockReply`, `need_nodes` is exactly the list of peers that replied
`true`; but a peer that fails to respond within the timeout makes the
collection — and with it the whole offload — abort with that peer's error,
leaving the local state (and the block file) unchanged. -/
theorem collect_need_nodes_behavior :
    (∀ (env : Env) (hash : Hash) (who : List NodeID),
      (∀ node ∈ who, ∃ b, env.need_block_rpc node hash = .ok (.NeedBlockReply b)) →
      collect_need_nodes env hash who = .ok (collect_need_nodes_spec env hash who)) ∧
    (∀ (env : Env) (s : BMState) (hash : Hash) (e : Error),
      (check_block_status env s hash).exists' = true →
      (check_block_status env s hash).needed = false →
      ¬((env.write_nodes hash).length < env.write_quorum) →
      collect_need_nodes env hash
        ((env.write_nodes hash).filter (fun id => id != env.self_id)) = .error e →
      resync_block env s hash = (.error e, s)) := by
  constructor
  · intro env hash who hall
    induction who with
    | nil => rfl
    | cons node rest ih =>
      obtain ⟨b, hb⟩ := hall node (List.mem_cons_self node rest)
      have hrest := ih (fun n hn => hall n (List.mem_cons_of_mem node hn))
      cases b with
      | true =>
        simp [collect_need_nodes, err_context, hb, hrest, collect_need_nodes_spec,
          List.filter_cons]
      | false =>
        simp [collect_need_nodes, err_context, hb, hrest, collect_need_nodes_spec,
          List.filter_cons]
  · intro env s hash e hex hne hq hcol
    simp [resync_block, hex, hne, offload_block, hq, hcol]

theorem collect_need_nodes_behavior_witness :
    collect_need_nodes envC4 h0 [2] = .ok (collect_need_nodes_spec envC4 h0 [2]) ∧
    resync_block envC4 sFile h0 = (.error (.Message "timeout"), sFile) :=
  ⟨collect_need_nodes_behavior.1 envC4 h0 [2]
     (by intro n hn; simp at hn; subst hn; exact ⟨true, rfl⟩),
   collect_need_nodes_behavior.2 envC4 sFile h0 (.Message "timeout")
     (by decide) (by decide) (by decide) (by decide)⟩

/-! ## C7: resync queue ordering -/

theorem bytesLt_iff_lt : ∀ a b : Bytes, bytesLt a b = true ↔ a < b
  | [], [] => by
    rw [show bytesLt [] [] = false from rfl]
    constructor
    · intro h; exact absurd h Bool.false_ne_true
    · intro h; cases h
  | [], b :: bs => by
    rw [show bytesLt [] (b :: bs) = true from rfl]
    exact ⟨fun _ => List.Lex.nil, fun _ => rfl⟩
  | a :: as, [] => by
    rw [show bytesLt (a :: as) [] = false from rfl]
    constructor
    · intro h; exact absurd h Bool.false_ne_true
    · intro h; cases h
  | a :: as, b :: bs => by
    rw [bytesLt]
    by_cases h1 : a < b
    · simp only [if_pos h1, true_iff]
      exact List.Lex.rel h1
    · by_cases h2 : b < a
      · simp only [if_neg h1, if_pos h2]
        constructor
        · intro h; exact absurd h Bool.false_ne_true
        · intro h
          cases h with
          | cons h' => exact absurd h2 (lt_irrefl a)
          | rel h' => exact absurd h' h1
      · have hab : a = b := Nat.le_antisymm (Nat.le_of_not_lt h2) (Nat.le_of_not_lt h1)
        subst hab
        simp only [if_neg h1, if_neg h2]
        rw [bytesLt_iff_lt as bs]
        constructor
        · exact fun h => List.Lex.cons h
        · intro h
          cases h with
          | cons h' => exact h'
          | rel h' => exact absurd h' (lt_irrefl a)

theorem qInsert_entry_sub (q : Queue) (k v : Bytes) :
    ∀ x ∈ qInsert q k v, x = (k, v) ∨ x ∈ q := by
  induction q with
  | nil =>
    intro x hx
    rw [qInsert] at hx
    exact Or.inl (List.mem_singleton.mp hx)
  | cons e rest ih =>
    intro x hx
    rw [qInsert] at hx
    by_cases h1 : bytesLt k e.1
    · rw [if_pos h1] at hx
      rcases List.mem_cons.mp hx with h | h
      · exact Or.inl h
      · exact Or.inr h
    · by_cases h2 : k = e.1
      · rw [if_neg h1, if_pos h2] at hx
        rcases List.mem_cons.mp hx with h | h
        · exact Or.inl h
        · exact Or.inr (List.mem_cons_of_mem e h)
      · rw [if_neg h1, if_neg h2] at hx
        rcases List.mem_cons.mp hx with h | h
        · exact Or.inr (h ▸ List.mem_cons_self e rest)
        · rcases ih x h with h' | h'
          · exact Or.inl h'
          · exact Or.inr (List.mem_cons_of_mem e h')

theorem qInsert_key_mem (q : Queue) (k v : Bytes) :
    k ∈ (qInsert q k v).map Prod.fst := by
  induction q with
  | nil => simp [qInsert]
  | cons e rest ih =>
    rw [qInsert]
    by_cases h1 : bytesLt k e.1
    · rw [if_pos h1, List.map_cons, List.mem_cons]
      exact Or.inl rfl
    · by_cases h2 : k = e.1
      · rw [if_neg h1, if_pos h2, List.map_cons, List.mem_cons]
        exact Or.inl rfl
      · rw [if_neg h1, if_neg h2, List.map_cons, List.mem_cons]
        exact Or.inr ih

theorem qInsert_key_mem_of_mem (q : Queue) (k v k' : Bytes)
    (h : k' ∈ q.map Prod.fst) : k' ∈ (qInsert q k v).map Prod.fst := by
  induction q with
  | nil => simp at h
  | cons e rest ih =>
    rw [List.map_cons, List.mem_cons] at h
    rw [qInsert]
    by_cases h1 : bytesLt k e.1
    · rw [if_pos h1, List.map_cons, List.mem_cons, List.map_cons, List.mem_cons]
      rcases h with h | h
      · exact Or.inr (Or.inl h)
      · exact Or.inr (Or.inr h)
    · by_cases h2 : k = e.1
      · rw [if_neg h1, if_pos h2, List.map_cons, List.mem_cons]
        rcases h with h | h
        · exact Or.inl (h.trans h2.symm)
        · exact Or.inr h
      · rw [if_neg h1, if_neg h2, List.map_cons, List.mem_cons]
        rcases h with h | h
        · exact Or.inl h
        · exact Or.inr (ih h)

theorem qInsert_sorted (q : Queue) (k v : Bytes) (hs : QSorted q) :
    QSorted (qInsert q k v) := by
  induction q with
  | nil => simp [qInsert, QSorted]
  | cons e rest ih =>
    rw [QSorted, List.pairwise_cons] at hs
    rw [qInsert]
    by_cases h1 : bytesLt k e.1
    · rw [if_pos h1]
      have hk : k < e.1 := (bytesLt_iff_lt k e.1).mp h1
      rw [QSorted, List.pairwise_cons]
      refine ⟨?_, List.pairwise_cons.mpr hs⟩
      intro x hx
      rcases List.mem_cons.mp hx with h | h
      · rw [h]; exact hk
      · exact lt_trans hk (hs.1 x h)
    · by_cases h2 : k = e.1
      · rw [if_neg h1, if_pos h2]
        rw [QSorted, List.pairwise_cons]
        exact ⟨fun x hx => h2 ▸ hs.1 x hx, hs.2⟩
      · rw [if_neg h1, if_neg h2]
        have hek : e.1 < k := by
          rcases lt_or_gt_of_ne (fun hh : k = e.1 => h2 hh) with hlt | hgt
          · exact absurd ((bytesLt_iff_lt k e.1).mpr hlt) h1
          · exact hgt
        rw [QSorted, List.pairwise_cons]
        refine ⟨?_, ih hs.2⟩
        intro x hx
        rcases qInsert_entry_sub rest k v x hx with h | h
        · rw [h]; exact hek
        · exact hs.1 x h

theorem sorted_keyIdx_lt (q : Queue) (k1 k2 : Bytes) (hs : QSorted q)
    (h1 : k1 ∈ q.map Prod.fst) (h2 : k2 ∈ q.map Prod.fst) (hlt : k1 < k2) :
    keyIdx q k1 < keyIdx q k2 := by
  induction q with
  | nil => simp at h1
  | cons e rest ih =>
    rw [QSorted, List.pairwise_cons] at hs
    rw [keyIdx, keyIdx, List.findIdx_cons, List.findIdx_cons]
    by_cases he1 : e.1 = k1
    · have hne : e.1 ≠ k2 := by rw [he1]; exact ne_of_lt hlt
      have b1 : (e.1 == k1) = true := beq_iff_eq.mpr he1
      have b2 : (e.1 == k2) = false := by simpa using hne
      simp [b1, b2]
    · by_cases he2 : e.1 = k2
      · exfalso
        rcases List.mem_map.mp h1 with ⟨x, hx, hxk⟩
        rcases List.mem_cons.mp hx with hxe | hxr
        · exact he1 (by rw [hxe] at hxk; exact hxk)
        · have hlt2 := hs.1 x hxr
          rw [hxk, he2] at hlt2
          exact absurd hlt (lt_asymm hlt2)
      · have h1' : k1 ∈ rest.map Prod.fst := by
          rcases List.mem_map.mp h1 with ⟨x, hx, hxk⟩
          rcases List.mem_cons.mp hx with hxe | hxr
          · exact absurd (by rw [hxe] at hxk; exact hxk) he1
          · exact List.mem_map.mpr ⟨x, hxr, hxk⟩
        have h2' : k2 ∈ rest.map Prod.fst := by
          rcases List.mem_map.mp h2 with ⟨x, hx, hxk⟩
          rcases List.mem_cons.mp hx with hxe | hxr
          · exact absurd (by rw [hxe] at hxk; exact hxk) he2
          · exact List.mem_map.mpr ⟨x, hxr, hxk⟩
        have b1 : (e.1 == k1) = false := by simpa using he1
        have b2 : (e.1 == k2) = false := by simpa using he2
        have := ih hs.2 h1' h2'
        rw [keyIdx, keyIdx] at this
        simp [b1, b2]
        omega

theorem beBytes_length (l : Nat) : ∀ n, (beBytes l n).length = l := by
  induction l with
  | zero => intro n; rfl
  | succ l ih => intro n; simp [beBytes, ih]

theorem beBytes_lt_of_lt (l : Nat) :
    ∀ n1 n2, n1 < n2 → n2 < 256 ^ l → beBytes l n1 < beBytes l n2 := by
  induction l with
  | zero =>
    intro n1 n2 hn h2
    rw [pow_zero] at h2
    exact absurd hn (by omega)
  | succ l ih =>
    intro n1 n2 hn h2
    have hp : 0 < (256 : Nat) ^ l := pow_pos (by norm_num) l
    have hd2 : n2 / 256 ^ l < 256 := by
      apply Nat.div_lt_of_lt_mul
      calc n2 < 256 ^ (l + 1) := h2
        _ = 256 ^ l * 256 := by ring
    have hd1 : n1 / 256 ^ l < 256 :=
      Nat.lt_of_le_of_lt (Nat.div_le_div_right (le_of_lt hn)) hd2
    rw [beBytes, beBytes, Nat.mod_eq_of_lt hd1, Nat.mod_eq_of_lt hd2]
    rcases Nat.lt_or_ge (n1 / 256 ^ l) (n2 / 256 ^ l) with hlt | hge
    · exact List.Lex.rel hlt
    · have hde : n1 / 256 ^ l = n2 / 256 ^ l :=
        Nat.le_antisymm (Nat.div_le_div_right (le_of_lt hn)) hge
      rw [hde]
      apply List.Lex.cons
      apply ih
      · have e1 := Nat.div_add_mod n1 (256 ^ l)
        have e2 := Nat.div_add_mod n2 (256 ^ l)
        rw [hde] at e1
        omega
      · exact Nat.mod_lt _ hp

theorem lex_append_left (xs : Bytes) :
    ∀ as bs : Bytes, as < bs → xs ++ as < xs ++ bs := by
  induction xs with
  | nil => intro as bs h; simpa using h
  | cons x xs ih => intro as bs h; exact List.Lex.cons (ih as bs h)

theorem lex_append_of_lt : ∀ xs ys : Bytes, xs < ys → xs.length = ys.length →
    ∀ as bs : Bytes, xs ++ as < ys ++ bs := by
  intro xs
  induction xs with
  | nil =>
    intro ys h hl as bs
    cases ys with
    | nil => cases h
    | cons y ys => simp at hl
  | cons x xs ih =>
    intro ys h hl as bs
    cases ys with
    | nil => cases h
    | cons y ys =>
      cases h with
      | rel h' => exact List.Lex.rel h'
      | cons h' =>
        simp only [List.length_cons, Nat.add_right_cancel_iff] at hl
        exact List.Lex.cons (ih ys h' hl as bs)

theorem resync_key_lt_of_time (t1 t2 : Nat) (ha hb : Hash)
    (h : t1 < t2) (h2 : t2 < 2 ^ 64) :
    resync_key t1 0 ha < resync_key t2 0 hb := by
  have e1 : (t1 + 0) % 2 ^ 64 = t1 := by
    rw [Nat.add_zero]; exact Nat.mod_eq_of_lt (lt_trans h h2)
  have e2 : (t2 + 0) % 2 ^ 64 = t2 := by
    rw [Nat.add_zero]; exact Nat.mod_eq_of_lt h2
  rw [resync_key, resync_key, u64_to_be_bytes, u64_to_be_bytes, e1, e2]
  refine lex_append_of_lt _ _ ?_ ?_ ha hb
  · refine beBytes_lt_of_lt 8 t1 t2 h ?_
    have hpow : (256 : Nat) ^ 8 = 2 ^ 64 := by norm_num
    rw [hpow]
    exact h2
  · rw [beBytes_length, beBytes_length]

theorem resync_key_lt_of_hash (t : Nat) (ha hb : Hash) (h : ha < hb) :
    resync_key t 0 ha < resync_key t 0 hb :=
  lex_append_left _ ha hb h

/-- C7: for tasks T1 = (t1, h1) and T2 = (t2, h2) with t1 < t2 pushed onto
any well-formed resync queue in either order, T1's entry sits strictly
before T2's, so `pop_min` returns T1 before T2; among equal due times the
dequeue order is lexicographic by hash; and on a sorted queue `pop_min`
removes the head, which is strictly smaller than every remaining key (the
keys being the 8-byte big-endian due time followed by the hash). -/
theorem resync_queue_ordering (q : Queue) (t1 t2 : Nat) (h1 h2 : Hash)
    (hs : QSorted q) (ht : t1 < t2) (hb : t2 < 2 ^ 64) :
    (keyIdx (queue_put t1 (queue_put t2 q h2 0) h1 0) (resync_key t1 0 h1) <
     keyIdx (queue_put t1 (queue_put t2 q h2 0) h1 0) (resync_key t2 0 h2)) ∧
    (keyIdx (queue_put t2 (queue_put t1 q h1 0) h2 0) (resync_key t1 0 h1) <
     keyIdx (queue_put t2 (queue_put t1 q h1 0) h2 0) (resync_key t2 0 h2)) ∧
    (∀ h1' h2' : Hash, h1' < h2' →
      keyIdx (queue_put t1 (queue_put t1 q h2' 0) h1' 0) (resync_key t1 0 h1') <
      keyIdx (queue_put t1 (queue_put t1 q h2' 0) h1' 0) (resync_key t1 0 h2')) ∧
    (∀ (e : Bytes × Bytes) (rest : Queue), QSorted (e :: rest) →
      pop_min (e :: rest) = some (e, rest) ∧ ∀ x ∈ rest, e.1 < x.1) := by
  have hk : resync_key t1 0 h1 < resync_key t2 0 h2 :=
    resync_key_lt_of_time t1 t2 h1 h2 ht hb
  refine ⟨?_, ?_, ?_, ?_⟩
  · refine sorted_keyIdx_lt _ _ _ ?_ ?_ ?_ hk
    · exact qInsert_sorted _ _ _ (qInsert_sorted _ _ _ hs)
    · exact qInsert_key_mem _ _ _
    · exact qInsert_key_mem_of_mem _ _ _ _ (qInsert_key_mem _ _ _)
  · refine sorted_keyIdx_lt _ _ _ ?_ ?_ ?_ hk
    · exact qInsert_sorted _ _ _ (qInsert_sorted _ _ _ hs)
    · exact qInsert_key_mem_of_mem _ _ _ _ (qInsert_key_mem _ _ _)
    · exact qInsert_key_mem _ _ _
  · intro h1' h2' hh
    refine sorted_keyIdx_lt _ _ _ ?_ ?_ ?_ (resync_key_lt_of_hash t1 h1' h2' hh)
    · exact qInsert_sorted _ _ _ (qInsert_sorted _ _ _ hs)
    · exact qInsert_key_mem _ _ _
    · exact qInsert_key_mem_of_mem _ _ _ _ (qInsert_key_mem _ _ _)
  · intro e rest hs'
    rw [QSorted, List.pairwise_cons] at hs'
    exact ⟨rfl, hs'.1⟩

theorem resync_queue_ordering_witness :
    (keyIdx (queue_put 0 (queue_put 1 ([] : Queue) hOne 0) h0 0) (resync_key 0 0 h0) <
     keyIdx (queue_put 0 (queue_put 1 ([] : Queue) hOne 0) h0 0) (resync_key 1 0 hOne)) ∧
    (keyIdx (queue_put 1 (queue_put 0 ([] : Queue) h0 0) hOne 0) (resync_key 0 0 h0) <
     keyIdx (queue_put 1 (queue_put 0 ([] : Queue) h0 0) hOne 0) (resync_key 1 0 hOne)) ∧
    (keyIdx (queue_put 0 (queue_put 0 ([] : Queue) hOne 0) h0 0) (resync_key 0 0 h0) <
     keyIdx (queue_put 0 (queue_put 0 ([] : Queue) hOne 0) h0 0) (resync_key 0 0 hOne)) ∧
    (pop_min [(resync_key 0 0 h0, h0), (resync_key 1 0 hOne, hOne)] =
      some ((resync_key 0 0 h0, h0), [(resync_key 1 0 hOne, hOne)]) ∧
     ∀ x ∈ [(resync_key 1 0 hOne, hOne)], (resync_key 0 0 h0, h0).1 < x.1) := by
  have T := resync_queue_ordering [] 0 1 h0 hOne List.Pairwise.nil (by norm_num) (by norm_num)
  refine ⟨T.1, T.2.1, T.2.2.1 h0 hOne (by decide), T.2.2.2 (resync_key 0 0 h0, h0)
    [(resync_key 1 0 hOne, hOne)] ?_⟩
  rw [QSorted]
  refine List.pairwise_cons.mpr ⟨?_, List.pairwise_singleton _ _⟩
  intro x hx
  rw [List.mem_singleton.mp hx]
  exact resync_key_lt_of_time 0 1 h0 hOne (by norm_num) (by norm_num)

/-! ## Hex decoding lemmas -/

theorem hexDecodeChars_length : ∀ (cs : List Char) (bs : Bytes),
    hexDecodeChars cs = some bs → cs.length = 2 * bs.length
  | [], bs, h => by
    simp only [hexDecodeChars, Option.some.injEq] at h
    subst h
    rfl
  | [c], bs, h => by
    simp only [hexDecodeChars] at h
    exact absurd h (by simp)
  | c1 :: c2 :: rest, bs, h => by
    simp only [hexDecodeChars] at h
    cases hv1 : hexVal c1 with
    | none => rw [hv1] at h; simp at h
    | some a1 =>
      cases hv2 : hexVal c2 with
      | none => rw [hv1, hv2] at h; simp at h
      | some a2 =>
        cases hr : hexDecodeChars rest with
        | none => rw [hv1, hv2, hr] at h; simp at h
        | some bs' =>
          rw [hv1, hv2, hr] at h
          simp only [Option.some.injEq] at h
          have ih := hexDecodeChars_length rest bs' hr
          rw [← h]
          simp only [List.length_cons]
          omega

theorem hexVal_isSome_iff (c : Char) :
    (hexVal c).isSome = true ↔ isHexChar c = true := by
  constructor
  · intro h
    rw [hexVal] at h
    simp only [isHexChar, Bool.or_eq_true, Bool.and_eq_true, decide_eq_true_eq]
    split_ifs at h with h1 h2 h3
    · exact Or.inl (Or.inl h1)
    · exact Or.inl (Or.inr h2)
    · exact Or.inr h3
    · exact absurd h (by simp)
  · intro h
    simp only [isHexChar, Bool.or_eq_true, Bool.and_eq_true, decide_eq_true_eq] at h
    rw [hexVal]
    split_ifs with g1 g2 g3
    · rfl
    · rfl
    · rfl
    · rcases h with (⟨ha, hb⟩ | ⟨ha, hb⟩) | ⟨ha, hb⟩
      · exact absurd ⟨ha, hb⟩ g1
      · exact absurd ⟨ha, hb⟩ g2
      · exact absurd ⟨ha, hb⟩ g3

theorem hexDecodeChars_isSome_iff : ∀ cs : List Char,
    (hexDecodeChars cs).isSome = true ↔
      (cs.length % 2 = 0 ∧ cs.all isHexChar = true)
  | [] => by simp [hexDecodeChars]
  | [c] => by simp [hexDecodeChars]
  | c1 :: c2 :: rest => by
    have ih := hexDecodeChars_isSome_iff rest
    simp only [hexDecodeChars]
    cases hv1 : hexVal c1 with
    | none =>
      have hc1 : isHexChar c1 = false := by
        rw [← Bool.not_eq_true, ← hexVal_isSome_iff, hv1]
        simp
      simp [hc1]
    | some a1 =>
      have hc1 : isHexChar c1 = true := by
        rw [← hexVal_isSome_iff, hv1]
        rfl
      cases hv2 : hexVal c2 with
      | none =>
        have hc2 : isHexChar c2 = false := by
          rw [← Bool.not_eq_true, ← hexVal_isSome_iff, hv2]
          simp
        simp [hc2]
      | some a2 =>
        have hc2 : isHexChar c2 = true := by
          rw [← hexVal_isSome_iff, hv2]
          rfl
        cases hr : hexDecodeChars rest with
        | none =>
          simp only [hr, Option.isSome_none] at ih
          have hrest : ¬(rest.length % 2 = 0 ∧ rest.all isHexChar = true) := by
            rw [← ih]
            simp
          simp only [Option.isSome_none, List.all_cons, hc1, hc2,
            List.length_cons, Bool.true_and]
          constructor
          · intro hfalse
            exact absurd hfalse (by simp)
          · intro hcon
            exact absurd ⟨by omega, hcon.2⟩ hrest
        | some bs' =>
          simp only [hr, Option.isSome_some, true_iff] at ih
          simp only [Option.isSome_some, true_iff, List.all_cons, hc1, hc2,
            List.length_cons, Bool.true_and]
          exact ⟨by omega, ih.2⟩

/-! ## C10: the walk is total and the hash copy cannot fail -/

mutual

theorem walkEnt_isSome : ∀ e : DirEnt, (walkEnt e).isSome = true
  | .dir none _ => rfl
  | .file none _ => rfl
  | .dir (some name) entries => by
    rw [walkEnt]
    by_cases hc1 : name.length = 2 ∧ (hexDecodeStr name).isSome
    · rw [if_pos hc1]
      exact walkList_isSome entries
    · rw [if_neg hc1]
      by_cases hc2 : name.length = 64
      · rw [if_pos hc2]
        cases hd : hexDecodeStr name with
        | none => rfl
        | some bs =>
          have hlen : bs.length = 32 := by
            have h1 := hexDecodeChars_length name.data bs hd
            have h2 : name.data.length = 64 := hc2
            omega
          simp [hlen]
      · rw [if_neg hc2]
        rfl
  | .file (some name) _ => by
    rw [walkEnt]
    by_cases hc2 : name.length = 64
    · rw [if_pos hc2]
      cases hd : hexDecodeStr name with
      | none => rfl
      | some bs =>
        have hlen : bs.length = 32 := by
          have h1 := hexDecodeChars_length name.data bs hd
          have h2 : name.data.length = 64 := hc2
          omega
        simp [hlen]
    · rw [if_neg hc2]
      rfl

theorem walkList_isSome : ∀ es : EntList, (walkList es).isSome = true
  | .nil => rfl
  | .cons e rest => by
    rw [walkList]
    have h1 := walkEnt_isSome e
    have h2 := walkList_isSome rest
    cases he : walkEnt e with
    | none => rw [he] at h1; exact absurd h1 (by simp)
    | some a =>
      cases hr : walkList rest with
      | none => rw [hr] at h2; exact absurd h2 (by simp)
      | some b => rfl

end

/-- C10: for every entry name of length 64 whose hex decoding succeeds, the
decoded byte vector has length exactly 32, so the copy into the fixed
32-byte hash array cannot fail; and the walk is total over arbitrary
directory contents — it always produces a result (`isSome`), skipping
non-UTF-8 and non-hex names rather than failing on them. -/
theorem walk_never_panics :
    (∀ (name : String) (bs : Bytes), name.length = 64 →
      hexDecodeStr name = some bs → bs.length = 32) ∧
    (∀ es : EntList, (walkList es).isSome = true) := by
  constructor
  · intro name bs hl hd
    have h1 := hexDecodeChars_length name.data bs hd
    have h2 : name.data.length = 64 := hl
    omega
  · exact walkList_isSome

theorem walk_never_panics_witness :
    (name64.length = 64 ∧ hexDecodeStr name64 = some h0 ∧ h0.length = 32) ∧
    (walkList exTree).isSome = true :=
  ⟨⟨by decide, by decide, walk_never_panics.1 name64 h0 (by decide) (by decide)⟩,
   walk_never_panics.2 exTree⟩

/-! ## C9: the directory walk rule (corrected) -/

mutual

theorem walkEnt_amended : ∀ e : DirEnt, walkEnt e = some (amendedWalkEnt e)
  | .dir none _ => rfl
  | .file none _ => rfl
  | .dir (some name) entries => by
    rw [walkEnt, amendedWalkEnt]
    by_cases h2 : name.length = 2
    · by_cases hall : name.data.all isHexChar = true
      · have hsome : (hexDecodeStr name).isSome = true := by
          refine (hexDecodeChars_isSome_iff name.data).mpr ⟨?_, hall⟩
          have hd2 : name.data.length = 2 := h2
          omega
        rw [if_pos ⟨h2, hsome⟩, if_pos ⟨h2, hall⟩]
        exact walkList_amended entries
      · have hnsome : ¬((hexDecodeStr name).isSome = true) := fun hs =>
          hall ((hexDecodeChars_isSome_iff name.data).mp hs).2
        have h64 : ¬(name.length = 64) := by omega
        rw [if_neg (fun hc => hnsome hc.2), if_neg h64,
          if_neg (fun hc : _ ∧ _ => hall hc.2), if_neg (fun hc : _ ∧ _ => h64 hc.1)]
    · by_cases h64 : name.length = 64
      · cases hd : hexDecodeStr name with
        | none =>
          have hnall : ¬(name.data.all isHexChar = true) := by
            intro hall
            have hs : (hexDecodeChars name.data).isSome = true := by
              refine (hexDecodeChars_isSome_iff name.data).mpr ⟨?_, hall⟩
              have hd64 : name.data.length = 64 := h64
              omega
            rw [show hexDecodeChars name.data = hexDecodeStr name from rfl, hd] at hs
            exact absurd hs (by simp)
          rw [if_neg (fun hc : _ ∧ _ => h2 hc.1), if_pos h64,
            if_neg (fun hc : _ ∧ _ => h2 hc.1), if_neg (fun hc : _ ∧ _ => hnall hc.2)]
        | some bs =>
          have hall : name.data.all isHexChar = true := by
            refine ((hexDecodeChars_isSome_iff name.data).mp ?_).2
            rw [show hexDecodeChars name.data = hexDecodeStr name from rfl, hd]
            rfl
          have hb32 : bs.length = 32 := by
            have hl := hexDecodeChars_length name.data bs hd
            have hd64 : name.data.length = 64 := h64
            omega
          rw [if_neg (fun hc : _ ∧ _ => h2 hc.1), if_pos h64,
            if_neg (fun hc : _ ∧ _ => h2 hc.1), if_pos ⟨h64, hall⟩]
          simp [hb32]
      · rw [if_neg (fun hc : _ ∧ _ => h2 hc.1), if_neg h64,
          if_neg (fun hc : _ ∧ _ => h2 hc.1), if_neg (fun hc : _ ∧ _ => h64 hc.1)]
  | .file (some name) d => by
    rw [walkEnt, amendedWalkEnt]
    by_cases h64 : name.length = 64
    · cases hd : hexDecodeStr name with
      | none =>
        have hnall : ¬(name.data.all isHexChar = true) := by
          intro hall
          have hs : (hexDecodeChars name.data).isSome = true := by
            refine (hexDecodeChars_isSome_iff name.data).mpr ⟨?_, hall⟩
            have hd64 : name.data.length = 64 := h64
            omega
          rw [show hexDecodeChars name.data = hexDecodeStr name from rfl, hd] at hs
          exact absurd hs (by simp)
        rw [if_pos h64, if_neg (fun hc : _ ∧ _ => hnall hc.2)]
      | some bs =>
        have hall : name.data.all isHexChar = true := by
          refine ((hexDecodeChars_isSome_iff name.data).mp ?_).2
          rw [show hexDecodeChars name.data = hexDecodeStr name from rfl, hd]
          rfl
        have hb32 : bs.length = 32 := by
          have hl := hexDecodeChars_length name.data bs hd
          have hd64 : name.data.length = 64 := h64
          omega
        rw [if_pos h64, if_pos ⟨h64, hall⟩]
        simp [hb32]
    · rw [if_neg h64, if_neg (fun hc : _ ∧ _ => h64 hc.1)]

theorem walkList_amended : ∀ es : EntList, walkList es = some (amendedWalkList es)
  | .nil => rfl
  | .cons e rest => by
    rw [walkList, amendedWalkList, walkEnt_amended e, walkList_amended rest]

end

/-- C9 counterexample: a regular file named by 64 lowercase hex characters
sitting directly in `data_dir` (depth 1) is yielded by the walk, while the
claimed rule — yields at depth 3 only — predicts that it is skipped. -/
theorem walk_depth_counterexample :
    walkList exTree = some [h0] ∧ specWalkList 1 exTree = [] :=
  ⟨by decide, by decide⟩

/-- C9 amended: at every depth the walk descends into directory entries
whose name is exactly two hex characters of either case, and yields every
entry — directory or regular file, at any depth — whose name is exactly 64
hex characters of either case; every other entry, including names that are
not valid UTF-8, is skipped. -/
theorem for_each_file_rec_walk_rule (es : EntList) :
    walkList es = some (amendedWalkList es) :=
  walkList_amended es

end BlockSpec
